import Mathlib

/-!
Verification of the subset load balancer core declared in
source/common/upstream/subset_lb.h (class Envoy::Upstream::SubsetLoadBalancer).

The header declares the data model (LbSubsetEntry, PrioritySubsetImpl,
HostSubsetImpl, SubsetSelectorMap, SubsetMetadata) together with a few inline
member bodies (LbSubsetEntry::initialized/active, PrioritySubsetImpl::empty
and its default field initializer, HostSubsetImpl::empty).  The out-of-line
member bodies (processSubsets, findSubset, findOrCreateSubset, chooseHost,
update, determineLocalityWeights, initSubsetSelectorMap, ...) are not part of
the repository snapshot, so they are modelled from the specification; each
such definition carries a doc comment saying so.
-/

namespace SubsetLb

/-- ProtobufWkt::Value as used for subset metadata: a hashable, totally
comparable value that may be a null, bool, number or string.  Identical
content compares equal (models HashedValue). -/
inductive MValue : Type where
  | nullV : MValue
  | boolV : Bool → MValue
  | numV : Int → MValue
  | strV : String → MValue
deriving DecidableEq

/-- A host: an address plus its "envoy.lb" filter metadata (string key to
typed value).  Hosts are externally owned and never mutated by the core. -/
structure Host where
  address : String
  metadata : List (String × MValue)
deriving DecidableEq

/-- SubsetMetadata from the header: an ordered sequence of (key, value)
pairs (sorted lexicographically by key when produced from a selector). -/
abbrev SubsetMetadata := List (String × MValue)

/-- Association-list find, modelling unordered_map::find. -/
def assocFind {α β : Type} [DecidableEq α] : List (α × β) → α → Option β
  | [], _ => none
  | (k, b) :: t, a => if k = a then some b else assocFind t a

/-- Association-list insert-or-replace, modelling unordered_map element
assignment: an existing key's mapped value is replaced in place, a new key is
appended. -/
def assocSet {α β : Type} [DecidableEq α] : List (α × β) → α → β → List (α × β)
  | [], a, b => [(a, b)]
  | (k, b') :: t, a, b => if k = a then (a, b) :: t else (k, b') :: assocSet t a b

/-- Metadata lookup on a host's metadata mapping. -/
def lookupMeta (md : List (String × MValue)) (k : String) : Option MValue :=
  assocFind md k

/-- Modelled from the spec: SubsetLoadBalancer::hostMatches (body not in the
header) — a host matches a SubsetMetadata path exactly when its metadata has
every (key, value) pair of the path. -/
def hostMatches (kvs : SubsetMetadata) (h : Host) : Bool :=
  kvs.all fun kv => decide (lookupMeta h.metadata kv.1 = some kv.2)

/-- Modelled from the spec: SubsetLoadBalancer::extractSubsetMetadata (body
not in the header) — for the given selector keys (iterated in their given,
lexicographically sorted, order) collect the host's value for each key; if
any key is missing from the host's metadata no SubsetMetadata is produced
(the C++ body clears the partially built vector). -/
def extractSubsetMetadata (keys : List String) (md : List (String × MValue)) :
    Option SubsetMetadata :=
  match keys with
  | [] => some []
  | k :: ks =>
    match lookupMeta md k with
    | none => none
    | some v => (extractSubsetMetadata ks md).map fun rest => (k, v) :: rest

/-- PrioritySubsetImpl from the header: per-priority filtered host lists
(one HostSubsetImpl per priority of the original PrioritySet) plus the
aggregate empty flag (header field: bool empty_ = true). -/
structure PrioritySubsetImpl where
  hostSets : List (List Host)
  empty_ : Bool
deriving DecidableEq

/-- PrioritySubsetImpl::empty from the header: returns the empty_ flag. -/
def PrioritySubsetImpl.empty (ps : PrioritySubsetImpl) : Bool := ps.empty_

/-- A freshly constructed PrioritySubsetImpl before any membership update:
one empty host set per priority of the original cluster and, per the header
field initializer, empty_ = true. -/
def psNew (n : Nat) : PrioritySubsetImpl :=
  { hostSets := List.replicate n [], empty_ := true }

/-- Modelled from the spec: PrioritySubsetImpl::update (body not in the
header) — forwards the delta to the HostSubsetImpl of the given priority
(removing removed hosts, adding the added hosts that satisfy the entry's
predicate, leaving unrelated members untouched) and recomputes the aggregate
empty flag across all priorities. -/
def psUpdate (ps : PrioritySubsetImpl) (q : Nat) (added removed : List Host)
    (p : SubsetMetadata) : PrioritySubsetImpl :=
  let hs := ps.hostSets.set q
    (((ps.hostSets.getD q []).filter fun h => !decide (h ∈ removed)) ++
      added.filter (hostMatches p))
  { hostSets := hs, empty_ := hs.all List.isEmpty }

/-- Modelled from the spec: construction of a PrioritySubsetImpl for a newly
materialized entry — for each priority level of the original cluster it owns
a host set filtered by the entry's membership predicate, derived from the
authoritative per-priority host set (spec section 3, PrioritySubsetView). -/
def psCreateFrom (n : Nat) (auth : List (List Host)) (p : SubsetMetadata) :
    PrioritySubsetImpl :=
  let hs := (List.range n).map fun q => (auth.getD q []).filter (hostMatches p)
  { hostSets := hs, empty_ := hs.all List.isEmpty }

/-- LbSubsetEntry from the header: a node of the dynamic trie.  children_
is a map from key to a map from value to child entry; priority_subset_ is
only initialized if a match exists at this level. -/
inductive LbSubsetEntry : Type where
  | mk : List (String × List (MValue × LbSubsetEntry)) →
      Option PrioritySubsetImpl → LbSubsetEntry

/-- LbSubsetMap from the header: key to (value to entry) mapping. -/
abbrev LbSubsetMap := List (String × List (MValue × LbSubsetEntry))

/-- The children_ field of an entry. -/
def LbSubsetEntry.children : LbSubsetEntry → LbSubsetMap
  | .mk c _ => c

/-- The priority_subset_ field of an entry. -/
def LbSubsetEntry.priority_subset_ : LbSubsetEntry → Option PrioritySubsetImpl
  | .mk _ ps => ps

/-- LbSubsetEntry::initialized from the header: the entry owns a
PrioritySubsetImpl. -/
def LbSubsetEntry.initialized (e : LbSubsetEntry) : Bool :=
  e.priority_subset_.isSome

/-- LbSubsetEntry::active from the header: initialized and the priority
subset is not empty. -/
def LbSubsetEntry.active (e : LbSubsetEntry) : Bool :=
  e.initialized &&
    (match e.priority_subset_ with
     | some ps => !ps.empty
     | none => false)

/-- Pure trie descent: one (key, value) level per criterion, in the
criteria's given order, returning the terminal entry if every level exists.
This is the traversal skeleton shared by findSubset and findOrCreateSubset. -/
def traverse : List (String × MValue) → LbSubsetMap → Option LbSubsetEntry
  | [], _ => none
  | [c], m => (assocFind m c.1).bind fun vm => assocFind vm c.2
  | c :: rest :: rests, m =>
    ((assocFind m c.1).bind fun vm => assocFind vm c.2).bind fun e =>
      traverse (rest :: rests) e.children

/-- Modelled from the spec: SubsetLoadBalancer::findSubset (body not in the
header) — descend the dynamic trie one (key, value) level per match
criterion, in the criteria's given order; return the terminal entry only if
every level exists and the entry is active, otherwise return none. -/
def findSubset : List (String × MValue) → LbSubsetMap → Option LbSubsetEntry
  | [], _ => none
  | [c], m =>
    match (assocFind m c.1).bind fun vm => assocFind vm c.2 with
    | none => none
    | some e => if e.active then some e else none
  | c :: rest :: rests, m =>
    match (assocFind m c.1).bind fun vm => assocFind vm c.2 with
    | none => none
    | some e => findSubset (rest :: rests) e.children

/-- Modelled from the spec: SubsetLoadBalancer::findOrCreateSubset (body not
in the header) — descend/create trie levels for the given (key, value) path,
creating intermediate and leaf entries as needed (new entries start with no
priority subset), and return the updated map together with the entry found
or created at the end of the path. -/
def findOrCreateSubset : List (String × MValue) → LbSubsetMap →
    LbSubsetMap × LbSubsetEntry
  | [], m => (m, .mk [] none)
  | [c], m =>
    let vm := (assocFind m c.1).getD []
    let e := (assocFind vm c.2).getD (.mk [] none)
    (assocSet m c.1 (assocSet vm c.2 e), e)
  | c :: rest :: rests, m =>
    let vm := (assocFind m c.1).getD []
    let e := (assocFind vm c.2).getD (.mk [] none)
    let r := findOrCreateSubset (rest :: rests) e.children
    (assocSet m c.1 (assocSet vm c.2 (.mk r.1 e.priority_subset_)), r.2)

/-- Find-or-create the trie path and apply a function to the leaf entry's
priority subset, leaving every other entry's priority subset untouched.
This models the update pattern of processSubsets: findOrCreateSubset followed
by a mutation of the returned entry's priority_subset_. -/
def updateView : List (String × MValue) →
    (Option PrioritySubsetImpl → Option PrioritySubsetImpl) →
    LbSubsetMap → LbSubsetMap
  | [], _, m => m
  | [c], f, m =>
    let vm := (assocFind m c.1).getD []
    let e := (assocFind vm c.2).getD (.mk [] none)
    assocSet m c.1 (assocSet vm c.2 (.mk e.children (f e.priority_subset_)))
  | c :: rest :: rests, f, m =>
    let vm := (assocFind m c.1).getD []
    let e := (assocFind vm c.2).getD (.mk [] none)
    assocSet m c.1 (assocSet vm c.2 (.mk (updateView (rest :: rests) f e.children) e.priority_subset_))

/-- The priority subset stored at a trie path (none when the path is missing
or the entry is uninitialized). -/
def viewAt (m : LbSubsetMap) (p : List (String × MValue)) : Option PrioritySubsetImpl :=
  (traverse p m).bind LbSubsetEntry.priority_subset_

/-- A path is materialized in the trie. -/
def pathExists (p : List (String × MValue)) (m : LbSubsetMap) : Prop :=
  (traverse p m).isSome = true

/-- LbSubsetSelectorFallbackPolicy: the per-selector fallback policy. -/
inductive SelectorFallbackPolicy : Type where
  | NO_FALLBACK : SelectorFallbackPolicy
  | ANY_ENDPOINT : SelectorFallbackPolicy
  | DEFAULT_SUBSET : SelectorFallbackPolicy
deriving DecidableEq, Inhabited

/-- LbSubsetFallbackPolicy: the cluster-wide fallback policy. -/
inductive FallbackPolicy : Type where
  | NO_FALLBACK : FallbackPolicy
  | ANY_ENDPOINT : FallbackPolicy
  | DEFAULT_SUBSET : FallbackPolicy
deriving DecidableEq, Inhabited

/-- A configured subset selector: a (lexicographically sorted) list of
metadata keys, its fallback policy, and the single-host-subset flag. -/
structure SelectorSpec where
  keys : List String
  fallbackPolicy : SelectorFallbackPolicy
  singleHostPerSubset : Bool
deriving DecidableEq, Inhabited

/-- The static configuration of the subset load balancer that the claims
depend on: the selectors, the cluster-wide fallback policy and its default
subset metadata, and the number of priority levels of the original cluster. -/
structure LbConfig where
  selectors : List SelectorSpec
  fallbackPolicy : FallbackPolicy
  defaultSubsetMetadata : SubsetMetadata
  numPriorities : Nat

/-- The mutable state of the subset load balancer: the dynamic trie
(subsets_), the authoritative per-priority host sets it mirrors, and the
cluster-wide and per-selector fallback subset entries. -/
structure LbState where
  subsets : LbSubsetMap
  auth : List (List Host)
  fallbackSubset : Option LbSubsetEntry
  selectorFallbackAny : Option LbSubsetEntry
  selectorFallbackDefault : Option LbSubsetEntry

/-- The SubsetMetadata predicate path used by the cluster-wide fallback
subset: every host for ANY_ENDPOINT (the empty path matches every host),
the configured default subset metadata for DEFAULT_SUBSET. -/
def clusterFallbackPath (cfg : LbConfig) : SubsetMetadata :=
  match cfg.fallbackPolicy with
  | .DEFAULT_SUBSET => cfg.defaultSubsetMetadata
  | _ => []

/-- Modelled from the spec: construction (the constructor body and
refreshSubsets are not in the header) — the trie starts empty, the
authoritative sets are empty, the cluster-wide fallback subset exists unless
the policy is NO_FALLBACK, and the per-selector fallback subsets exist when
some selector declares the corresponding policy. -/
def initState (cfg : LbConfig) : LbState :=
  { subsets := []
    auth := List.replicate cfg.numPriorities []
    fallbackSubset :=
      match cfg.fallbackPolicy with
      | .NO_FALLBACK => none
      | _ => some (.mk [] (some (psNew cfg.numPriorities)))
    selectorFallbackAny :=
      if cfg.selectors.any fun s => decide (s.fallbackPolicy = .ANY_ENDPOINT) then
        some (.mk [] (some (psNew cfg.numPriorities)))
      else none
    selectorFallbackDefault :=
      if cfg.selectors.any fun s => decide (s.fallbackPolicy = .DEFAULT_SUBSET) then
        some (.mk [] (some (psNew cfg.numPriorities)))
      else none }

/-- The SubsetMetadata paths a host is indexed under: one per configured
selector whose key set is contained in the host's metadata keys (never the
power set of the host's metadata keys).  An empty extraction is discarded,
as in processSubsets. -/
def hostTargets (selectors : List SelectorSpec) (h : Host) : List SubsetMetadata :=
  selectors.filterMap fun s =>
    match extractSubsetMetadata s.keys h.metadata with
    | some p => if p.isEmpty then none else some p
    | none => none

/-- The distinct trie paths touched by a membership delta: the targets of
every added and removed host, deduplicated (processSubsets visits each
affected entry once per delta). -/
def touchedPaths (selectors : List SelectorSpec) (added removed : List Host) :
    List SubsetMetadata :=
  ((added ++ removed).flatMap (hostTargets selectors)).dedup

/-- Modelled from the spec: the per-entry effect of processSubsets for one
touched path — an initialized entry's priority subset receives the delta; an
uninitialized entry is lazily given a PrioritySubsetImpl (populated from the
post-delta authoritative host sets) when some added host routes to it. -/
def subsetStep (cfg : LbConfig) (authAfter : List (List Host)) (q : Nat)
    (added removed : List Host) (p : SubsetMetadata) :
    Option PrioritySubsetImpl → Option PrioritySubsetImpl
  | some ps => some (psUpdate ps q added removed p)
  | none =>
    if added.any fun h => decide (p ∈ hostTargets cfg.selectors h) then
      some (psCreateFrom cfg.numPriorities authAfter p)
    else none

/-- Modelled from the spec: SubsetLoadBalancer::processSubsets (body not in
the header) — for each added/removed host enumerate the configured selector
key subsets of its metadata, compute the corresponding SubsetMetadata path,
and route the host into/out of the PrioritySubsetImpl at that path's entry
(creating the entry and its priority subset lazily on first matching added
host). -/
def processSubsets (cfg : LbConfig) (m : LbSubsetMap) (authAfter : List (List Host))
    (q : Nat) (added removed : List Host) : LbSubsetMap :=
  (touchedPaths cfg.selectors added removed).foldl
    (fun acc p => updateView p (subsetStep cfg authAfter q added removed p) acc) m

/-- The authoritative host set delta for one priority: hosts in removed
leave, hosts in added join. -/
def applyAuthDelta (hosts : List Host) (added removed : List Host) : List Host :=
  (hosts.filter fun h => !decide (h ∈ removed)) ++ added

/-- Apply a delta to an (optional) fallback subset entry with the given
predicate path. -/
def updateEntryView (e : LbSubsetEntry) (q : Nat) (added removed : List Host)
    (p : SubsetMetadata) : LbSubsetEntry :=
  .mk e.children (e.priority_subset_.map fun ps => psUpdate ps q added removed p)

/-- Modelled from the spec: SubsetLoadBalancer::update (the HostSet member
update callback; body not in the header) — apply the delta to the
authoritative host set of the given priority, to the cluster-wide and
per-selector fallback subsets (updateFallbackSubset), and to every affected
dynamic trie entry (processSubsets). -/
def update (cfg : LbConfig) (st : LbState) (q : Nat) (added removed : List Host) :
    LbState :=
  let auth' := st.auth.set q (applyAuthDelta (st.auth.getD q []) added removed)
  { subsets := processSubsets cfg st.subsets auth' q added removed
    auth := auth'
    fallbackSubset := st.fallbackSubset.map fun e =>
      updateEntryView e q added removed (clusterFallbackPath cfg)
    selectorFallbackAny := st.selectorFallbackAny.map fun e =>
      updateEntryView e q added removed []
    selectorFallbackDefault := st.selectorFallbackDefault.map fun e =>
      updateEntryView e q added removed cfg.defaultSubsetMetadata }

/-- One membership delta: the priority it concerns plus the added and
removed hosts. -/
structure Delta where
  priority : Nat
  added : List Host
  removed : List Host

/-- Run a sequence of membership deltas from the freshly constructed state. -/
def runDeltas (cfg : LbConfig) (deltas : List Delta) : LbState :=
  deltas.foldl (fun st d => update cfg st d.priority d.added d.removed) (initState cfg)

/-- The request context: optional ordered metadata match criteria and the
requested priority. -/
structure LbContext where
  matchCriteria : Option (List (String × MValue))
  priority : Nat

/-- Modelled from the spec: SubsetLoadBalancer::tryFindSelectorFallbackPolicy
(body not in the header) — resolve the fallback policy attached to the
selector whose key set matches the key names of the request's match
criteria, via the static selector trie (SubsetSelectorMap). -/
def tryFindSelectorFallbackPolicy (selectors : List SelectorSpec)
    (keys : List String) : Option SelectorFallbackPolicy :=
  (selectors.find? fun s => decide (s.keys = keys)).map SelectorSpec.fallbackPolicy

/-- Which pool a request resolved to. -/
inductive ResolutionStage : Type where
  | exactMatch : ResolutionStage
  | selectorAny : ResolutionStage
  | selectorDefault : ResolutionStage
  | clusterFallback : ResolutionStage
deriving DecidableEq

/-- Modelled from the spec: the cluster-wide fallback resolution (step 3 of
chooseHost) — NO_FALLBACK resolves nothing, otherwise the fallback_subset_
entry is used. -/
def resolveClusterFallback (cfg : LbConfig) (st : LbState) :
    Option (ResolutionStage × LbSubsetEntry) :=
  match cfg.fallbackPolicy with
  | .NO_FALLBACK => none
  | _ => st.fallbackSubset.map fun e => (.clusterFallback, e)

/-- Modelled from the spec: the subset-resolution order of
SubsetLoadBalancer::chooseHost / tryChooseHostFromContext /
chooseHostForSelectorFallbackPolicy (bodies not in the header) — (1) an
active exact match wins; (2) otherwise a configured selector matching the
request's key names applies its own fallback policy (ANY_ENDPOINT uses the
unfiltered selector fallback subset, DEFAULT_SUBSET the default-metadata
selector fallback subset, NO_FALLBACK resolves nothing at this stage); (3)
only when no selector-level resolution occurred is the cluster-wide fallback
policy applied. -/
def resolveSubset (cfg : LbConfig) (st : LbState) (ctx : LbContext) :
    Option (ResolutionStage × LbSubsetEntry) :=
  match ctx.matchCriteria with
  | none => resolveClusterFallback cfg st
  | some crits =>
    match findSubset crits st.subsets with
    | some e => some (.exactMatch, e)
    | none =>
      match tryFindSelectorFallbackPolicy cfg.selectors (crits.map Prod.fst) with
      | some .ANY_ENDPOINT => st.selectorFallbackAny.map fun e => (.selectorAny, e)
      | some .DEFAULT_SUBSET => st.selectorFallbackDefault.map fun e => (.selectorDefault, e)
      | some .NO_FALLBACK => resolveClusterFallback cfg st
      | none => resolveClusterFallback cfg st

/-- The hosts an entry offers at a given priority. -/
def entryHostsAt (e : LbSubsetEntry) (q : Nat) : List Host :=
  match e.priority_subset_ with
  | some ps => ps.hostSets.getD q []
  | none => []

/-- Modelled from the spec: SubsetLoadBalancer::chooseHost (body not in the
header) — resolve the subset per resolveSubset, then delegate to the
resolved entry's embedded selection algorithm over that entry's host view
for the requested priority; if the resolved view has no hosts at that
priority, return no host without chaining to any further fallback. -/
def chooseHost (alg : List Host → Option Host) (cfg : LbConfig) (st : LbState)
    (ctx : LbContext) : Option Host :=
  match resolveSubset cfg st ctx with
  | none => none
  | some se =>
    let hosts := entryHostsAt se.2 ctx.priority
    if hosts.isEmpty then none else alg hosts

/-- Whether two configured selectors declare an identical key set. -/
def hasDuplicateKeySets : List SelectorSpec → Bool
  | [] => false
  | s :: rest => (rest.any fun t => decide (t.keys = s.keys)) || hasDuplicateKeySets rest

/-- Modelled from the spec: construction of the load balancer
(initSubsetSelectorMap's body is not in the header) — construction fails
fast, rejecting the configuration, if two selectors declare an identical key
set; otherwise it yields the freshly initialized state. -/
def mkSubsetLoadBalancer (cfg : LbConfig) : Option LbState :=
  if hasDuplicateKeySets cfg.selectors then none else some (initState cfg)

/-- Modelled from the spec: HostSubsetImpl::determineLocalityWeights (body
not in the header) — when locality-aware weighting is enabled and scaling is
enabled, each locality's original weight is scaled by retained over original
host count (integer division); when scaling is disabled the original weights
are returned unchanged; when locality awareness is disabled no weights are
produced. -/
def determineLocalityWeights (locality_weight_aware scale_locality_weight : Bool)
    (originalHostsPerLocality : List (List Host)) (predicate : Host → Bool)
    (originalWeights : List Nat) : Option (List Nat) :=
  if locality_weight_aware then
    if scale_locality_weight then
      some ((List.range originalWeights.length).map fun i =>
        originalWeights.getD i 0 *
          ((originalHostsPerLocality.getD i []).filter predicate).length /
          (originalHostsPerLocality.getD i []).length)
    else some originalWeights
  else none

/-- One trie level of descent: the entry mapped at one (key, value) pair. -/
def lookup1 (m : LbSubsetMap) (c : String × MValue) : Option LbSubsetEntry :=
  (assocFind m c.1).bind fun vm => assocFind vm c.2

/-- The entry at one (key, value) pair, or a fresh uninitialized entry. -/
def entry1 (m : LbSubsetMap) (c : String × MValue) : LbSubsetEntry :=
  (lookup1 m c).getD (.mk [] none)

/-- The hosts of the authoritative set of a priority that match a path. -/
def authFilter (auth : List (List Host)) (p : SubsetMetadata) (q : Nat) : List Host :=
  (auth.getD q []).filter (hostMatches p)

/-- A full selector path: a nonempty (key, value) sequence whose key list is
exactly the key list of some configured selector. -/
def SelectorPath (cfg : LbConfig) (p : SubsetMetadata) : Prop :=
  p ≠ [] ∧ ∃ s ∈ cfg.selectors, p.map Prod.fst = s.keys

/-- Correctness of the (optional) view stored at a path: an existing view
holds, for each priority, exactly the authoritative hosts matching the path;
a missing view means no authoritative host matches the path. -/
def viewOk (auth : List (List Host)) (p : SubsetMetadata) :
    Option PrioritySubsetImpl → Prop
  | some ps => ∀ q, ps.hostSets.getD q [] = authFilter auth p q
  | none => ∀ q, authFilter auth p q = []

/-- The state invariant maintained by every membership update. -/
structure Inv (cfg : LbConfig) (st : LbState) : Prop where
  authLen : st.auth.length = cfg.numPriorities
  views : ∀ p, SelectorPath cfg p → viewOk st.auth p (viewAt st.subsets p)
  shape : ∀ p ps, viewAt st.subsets p = some ps →
    ps.hostSets.length = cfg.numPriorities ∧
      ps.empty_ = ps.hostSets.all List.isEmpty
  pathsConf : ∀ p, pathExists p st.subsets →
    ∃ s ∈ cfg.selectors, p.map Prod.fst <+: s.keys

/-- Whether a host is a member of the PrioritySubsetImpl stored at a trie
path, at a given priority. -/
def memberView (st : LbState) (p : SubsetMetadata) (q : Nat) (h : Host) : Bool :=
  match viewAt st.subsets p with
  | some ps => decide (h ∈ ps.hostSets.getD q [])
  | none => false

/-- Whether the entry at a trie path is active. -/
def activeAt (st : LbState) (p : List (String × MValue)) : Bool :=
  match traverse p st.subsets with
  | some e => e.active
  | none => false

/-! ### Sample configuration used by the witnesses -/

def hostA : Host := ⟨"10.0.0.1", [("stage", .strV "prod")]⟩

def hostB : Host := ⟨"10.0.0.2", [("stage", .strV "canary")]⟩

def sampleSelector : SelectorSpec := ⟨["stage"], .ANY_ENDPOINT, false⟩

def sampleCfg : LbConfig := ⟨[sampleSelector], .ANY_ENDPOINT, [], 1⟩

def sampleDeltas : List Delta := [⟨0, [hostA, hostB], []⟩, ⟨0, [], [hostB]⟩]

def pathProd : SubsetMetadata := [("stage", MValue.strV "prod")]

def pathCanary : SubsetMetadata := [("stage", MValue.strV "canary")]

def sampleFreshTrie : LbSubsetMap :=
  [("stage", [(MValue.strV "prod", .mk [] (some (psNew 1)))])]

/-! ### Basic lemmas about the association-list maps and list indexing -/

@[simp]
theorem assocFind_nil {α β : Type} [DecidableEq α] (a : α) :
    assocFind ([] : List (α × β)) a = none := rfl

theorem assocFind_assocSet_self {α β : Type} [DecidableEq α]
    (l : List (α × β)) (a : α) (b : β) : assocFind (assocSet l a b) a = some b := by
  induction l with
  | nil => simp [assocSet, assocFind]
  | cons x t ih =>
    by_cases h : x.1 = a
    · simp [assocSet, assocFind, h]
    · simpa [assocSet, assocFind, h] using ih

theorem assocFind_assocSet_ne {α β : Type} [DecidableEq α]
    (l : List (α × β)) (a a' : α) (b : β) (h : a' ≠ a) :
    assocFind (assocSet l a b) a' = assocFind l a' := by
  induction l with
  | nil => simp [assocSet, assocFind, Ne.symm h]
  | cons x t ih =>
    by_cases hx : x.1 = a
    · simp [assocSet, assocFind, hx, Ne.symm h]
    · by_cases hx' : x.1 = a'
      · simp [assocSet, assocFind, hx, hx', h]
      · simpa [assocSet, assocFind, hx, hx'] using ih

theorem getD_set_self {α : Type} (l : List α) (i : Nat) (a d : α)
    (h : i < l.length) : (l.set i a).getD i d = a := by
  induction l generalizing i with
  | nil => simp at h
  | cons x t ih =>
    cases i with
    | zero => simp
    | succ j => simpa using ih j (by simpa using h)

theorem getD_set_ne {α : Type} (l : List α) (i j : Nat) (a d : α)
    (h : j ≠ i) : (l.set i a).getD j d = l.getD j d := by
  induction l generalizing i j with
  | nil => simp
  | cons x t ih =>
    cases i with
    | zero =>
      cases j with
      | zero => exact absurd rfl h
      | succ j' => simp
    | succ i' =>
      cases j with
      | zero => simp
      | succ j' => simpa using ih i' j' (fun hc => h (by simp [hc]))

theorem getD_eq_default_of_le {α : Type} (l : List α) (i : Nat) (d : α)
    (h : l.length ≤ i) : l.getD i d = d := by
  induction l generalizing i with
  | nil => simp [List.getD]
  | cons x t ih =>
    cases i with
    | zero => simp at h
    | succ j => simpa using ih j (by simpa using h)

theorem getD_map_range {α : Type} (n i : Nat) (f : Nat → α) (d : α) :
    ((List.range n).map f).getD i d = if i < n then f i else d := by
  induction n generalizing i f with
  | zero => simp [List.getD]
  | succ k ih =>
    rw [List.range_succ_eq_map]
    cases i with
    | zero => simp
    | succ j =>
      simp only [List.map_cons, List.map_map, List.getD_cons_succ]
      have := ih j (fun m => f (m + 1))
      simpa using this

theorem getD_replicate_nil {α : Type} (n i : Nat) :
    ((List.replicate n ([] : List α)).getD i []) = [] := by
  induction n generalizing i with
  | zero => simp [List.getD]
  | succ k ih =>
    cases i with
    | zero => simp [List.replicate]
    | succ j => simp [List.replicate, ih j]

theorem all_isEmpty_iff_getD (l : List (List Host)) :
    l.all List.isEmpty = true ↔ ∀ q, l.getD q [] = [] := by
  constructor
  · intro h q
    by_cases hq : q < l.length
    · have hmem : l.getD q [] ∈ l := by
        rw [List.getD_eq_getElem l [] hq]
        exact List.getElem_mem hq
      exact List.isEmpty_iff.mp ((List.all_eq_true.mp h) _ hmem)
    · exact getD_eq_default_of_le l q [] (Nat.le_of_not_lt hq)
  · intro h
    refine List.all_eq_true.mpr fun x hx => ?_
    obtain ⟨q, hq, rfl⟩ := List.mem_iff_getElem.mp hx
    refine List.isEmpty_iff.mpr ?_
    have := h q
    rwa [List.getD_eq_getElem l [] hq] at this

/-! ### Lemmas about metadata extraction and matching -/

theorem hostMatches_iff (p : SubsetMetadata) (h : Host) :
    hostMatches p h = true ↔ ∀ kv ∈ p, lookupMeta h.metadata kv.1 = some kv.2 := by
  simp [hostMatches, List.all_eq_true]

/-- The keys of an extracted SubsetMetadata path are exactly the selector
keys, in order, and the host matches the path. -/
theorem extract_spec (keys : List String) (md : List (String × MValue))
    (p : SubsetMetadata) (hx : extractSubsetMetadata keys md = some p) :
    p.map Prod.fst = keys ∧ ∀ kv ∈ p, lookupMeta md kv.1 = some kv.2 := by
  induction keys generalizing p with
  | nil =>
    simp [extractSubsetMetadata] at hx
    subst hx; simp
  | cons k ks ih =>
    simp only [extractSubsetMetadata] at hx
    cases hv : lookupMeta md k with
    | none => rw [hv] at hx; simp at hx
    | some v =>
      rw [hv] at hx
      cases hrest : extractSubsetMetadata ks md with
      | none => rw [hrest] at hx; simp at hx
      | some rest =>
        rw [hrest] at hx
        simp only [Option.map_some', Option.some.injEq] at hx
        subst hx
        obtain ⟨h1, h2⟩ := ih rest hrest
        refine ⟨by simp [h1], ?_⟩
        intro kv hkv
        rcases List.mem_cons.mp hkv with h | h
        · subst h; simpa using hv
        · exact h2 kv h

/-- A host whose metadata has every (key, value) pair of a path p whose key
list is exactly the given selector keys extracts to p itself. -/
theorem extract_of_matches (keys : List String) (md : List (String × MValue))
    (p : SubsetMetadata) (hk : p.map Prod.fst = keys)
    (hm : ∀ kv ∈ p, lookupMeta md kv.1 = some kv.2) :
    extractSubsetMetadata keys md = some p := by
  induction p generalizing keys with
  | nil => simp at hk; subst hk; simp [extractSubsetMetadata]
  | cons kv rest ih =>
    simp only [List.map_cons] at hk
    subst hk
    have hv : lookupMeta md kv.1 = some kv.2 := hm kv (by simp)
    simp only [extractSubsetMetadata, hv]
    rw [ih (rest.map Prod.fst) rfl (fun x hx => hm x (List.mem_cons_of_mem _ hx))]
    simp

theorem hostMatches_self (s : SelectorSpec) (h : Host) (p : SubsetMetadata)
    (hx : extractSubsetMetadata s.keys h.metadata = some p) :
    hostMatches p h = true := by
  obtain ⟨-, h2⟩ := extract_spec s.keys h.metadata p hx
  exact (hostMatches_iff p h).mpr h2

/-- A host matching a path whose key list is a configured selector's key
list is routed to exactly that path by processSubsets. -/
theorem mem_hostTargets_of_matches (selectors : List SelectorSpec)
    (s : SelectorSpec) (hs : s ∈ selectors) (h : Host) (p : SubsetMetadata)
    (hk : p.map Prod.fst = s.keys) (hne : p ≠ [])
    (hm : hostMatches p h = true) : p ∈ hostTargets selectors h := by
  refine List.mem_filterMap.mpr ⟨s, hs, ?_⟩
  rw [extract_of_matches s.keys h.metadata p hk ((hostMatches_iff p h).mp hm)]
  simp [List.isEmpty_iff, hne]

theorem mem_touchedPaths (selectors : List SelectorSpec)
    (added removed : List Host) (h : Host) (p : SubsetMetadata)
    (hh : h ∈ added ++ removed) (hp : p ∈ hostTargets selectors h) :
    p ∈ touchedPaths selectors added removed := by
  unfold touchedPaths
  exact List.mem_dedup.mpr (List.mem_flatMap.mpr ⟨h, hh, hp⟩)

theorem hostTargets_keys (selectors : List SelectorSpec) (h : Host)
    (p : SubsetMetadata) (hp : p ∈ hostTargets selectors h) :
    p ≠ [] ∧ ∃ s ∈ selectors, p.map Prod.fst = s.keys := by
  obtain ⟨s, hs, hfs⟩ := List.mem_filterMap.mp hp
  cases hx : extractSubsetMetadata s.keys h.metadata with
  | none => rw [hx] at hfs; simp at hfs
  | some p' =>
    rw [hx] at hfs
    cases hpe : p'.isEmpty with
    | true => simp [hpe] at hfs
    | false =>
      simp only [hpe, Bool.false_eq_true, if_false, Option.some.injEq] at hfs
      subst hfs
      exact ⟨fun hnil => by simp [hnil] at hpe, s, hs,
        (extract_spec s.keys h.metadata p' hx).1⟩

/-! ### Lemmas about the dynamic trie -/

@[simp]
theorem children_mk (c : LbSubsetMap) (ps : Option PrioritySubsetImpl) :
    (LbSubsetEntry.mk c ps).children = c := rfl

@[simp]
theorem priority_subset_mk (c : LbSubsetMap) (ps : Option PrioritySubsetImpl) :
    (LbSubsetEntry.mk c ps).priority_subset_ = ps := rfl

theorem viewAt_single (m : LbSubsetMap) (c : String × MValue) :
    viewAt m [c] = (lookup1 m c).bind LbSubsetEntry.priority_subset_ := rfl

theorem viewAt_cons2 (m : LbSubsetMap) (c d : String × MValue)
    (t : List (String × MValue)) :
    viewAt m (c :: d :: t) = (lookup1 m c).bind fun e => viewAt e.children (d :: t) := by
  simp [viewAt, traverse, lookup1, Option.bind_assoc]

theorem traverse_nil_map (p : List (String × MValue)) (hp : p ≠ []) :
    traverse p [] = none := by
  cases p with
  | nil => exact absurd rfl hp
  | cons c t => cases t <;> simp [traverse]

theorem ps_entry1 (m : LbSubsetMap) (c : String × MValue) :
    (entry1 m c).priority_subset_ = viewAt m [c] := by
  cases h : lookup1 m c <;> simp [entry1, viewAt_single, h]

theorem viewAt_children_entry1 (m : LbSubsetMap) (c d : String × MValue)
    (t : List (String × MValue)) :
    viewAt (entry1 m c).children (d :: t) = viewAt m (c :: d :: t) := by
  cases h : lookup1 m c with
  | none =>
    rw [viewAt_cons2, h]
    simp [entry1, h, viewAt, traverse_nil_map]
  | some e => simp [entry1, viewAt_cons2, h]

theorem updateView_single (c : String × MValue)
    (f : Option PrioritySubsetImpl → Option PrioritySubsetImpl) (m : LbSubsetMap) :
    updateView [c] f m =
      assocSet m c.1 (assocSet ((assocFind m c.1).getD []) c.2
        (.mk (entry1 m c).children (f (entry1 m c).priority_subset_))) := by
  cases hfk : assocFind m c.1 <;> simp [updateView, entry1, lookup1, hfk]

theorem updateView_cons2 (c d : String × MValue) (ts : List (String × MValue))
    (f : Option PrioritySubsetImpl → Option PrioritySubsetImpl) (m : LbSubsetMap) :
    updateView (c :: d :: ts) f m =
      assocSet m c.1 (assocSet ((assocFind m c.1).getD []) c.2
        (.mk (updateView (d :: ts) f (entry1 m c).children) (entry1 m c).priority_subset_)) := by
  cases hfk : assocFind m c.1 <;> simp [updateView, entry1, lookup1, hfk]

theorem lookup1_assocSet_self (m : LbSubsetMap) (c : String × MValue)
    (E : LbSubsetEntry) :
    lookup1 (assocSet m c.1 (assocSet ((assocFind m c.1).getD []) c.2 E)) c = some E := by
  unfold lookup1
  rw [assocFind_assocSet_self]
  simp [assocFind_assocSet_self]

theorem lookup1_assocSet_other (m : LbSubsetMap) (c c' : String × MValue)
    (E : LbSubsetEntry) (h : c' ≠ c) :
    lookup1 (assocSet m c.1 (assocSet ((assocFind m c.1).getD []) c.2 E)) c' =
      lookup1 m c' := by
  by_cases hk : c'.1 = c.1
  · have hv : c'.2 ≠ c.2 := fun hv => h (Prod.ext hk hv)
    unfold lookup1
    rw [hk, assocFind_assocSet_self]
    cases hfk : assocFind m c.1 with
    | none => simp [assocFind_assocSet_ne _ _ _ _ hv]
    | some vm => simp [assocFind_assocSet_ne _ _ _ _ hv]
  · unfold lookup1
    rw [assocFind_assocSet_ne _ _ _ _ hk]

/-- Central trie lemma: find-or-create plus leaf view mutation at path p
changes the view stored at p by exactly f and leaves the view at every other
path untouched. -/
theorem viewAt_updateView (p : List (String × MValue)) :
    ∀ (f : Option PrioritySubsetImpl → Option PrioritySubsetImpl) (m : LbSubsetMap)
      (p' : List (String × MValue)), p ≠ [] → p' ≠ [] →
      viewAt (updateView p f m) p' = if p' = p then f (viewAt m p) else viewAt m p' := by
  induction p with
  | nil => intro f m p' hp _; exact absurd rfl hp
  | cons c t ih =>
    intro f m p' _ hp'
    cases p' with
    | nil => exact absurd rfl hp'
    | cons c' t' =>
      cases t with
      | nil =>
        rw [updateView_single]
        cases t' with
        | nil =>
          by_cases hc : c' = c
          · subst hc
            rw [if_pos rfl, viewAt_single, lookup1_assocSet_self]
            simp only [Option.some_bind, priority_subset_mk]
            rw [ps_entry1]
          · rw [if_neg (by simp [hc]), viewAt_single,
              lookup1_assocSet_other _ _ _ _ hc, ← viewAt_single]
        | cons d' ts' =>
          rw [if_neg (by simp)]
          by_cases hc : c' = c
          · subst hc
            rw [viewAt_cons2, lookup1_assocSet_self]
            simp only [Option.some_bind, children_mk]
            rw [viewAt_children_entry1]
          · rw [viewAt_cons2, lookup1_assocSet_other _ _ _ _ hc, ← viewAt_cons2]
      | cons d ts =>
        rw [updateView_cons2]
        cases t' with
        | nil =>
          rw [if_neg (by simp)]
          by_cases hc : c' = c
          · subst hc
            rw [viewAt_single, lookup1_assocSet_self]
            simp only [Option.some_bind, priority_subset_mk]
            rw [ps_entry1]
          · rw [viewAt_single, lookup1_assocSet_other _ _ _ _ hc, ← viewAt_single]
        | cons d' ts' =>
          by_cases hc : c' = c
          · subst hc
            rw [viewAt_cons2, lookup1_assocSet_self]
            simp only [Option.some_bind, children_mk]
            rw [ih f _ (d' :: ts') (by simp) (by simp)]
            rw [viewAt_children_entry1, viewAt_children_entry1]
            by_cases hrest : (d' :: ts' : List (String × MValue)) = d :: ts
            · rw [if_pos hrest, if_pos (by rw [hrest])]
            · rw [if_neg hrest, if_neg (by simp [hrest])]
          · rw [viewAt_cons2, lookup1_assocSet_other _ _ _ _ hc, ← viewAt_cons2,
              if_neg (by simp [hc])]

theorem traverse_single (m : LbSubsetMap) (c : String × MValue) :
    traverse [c] m = lookup1 m c := rfl

theorem traverse_cons2 (m : LbSubsetMap) (c d : String × MValue)
    (ts : List (String × MValue)) :
    traverse (c :: d :: ts) m = (lookup1 m c).bind fun e => traverse (d :: ts) e.children := rfl

/-- Entries are never destroyed: a path materialized before a trie update is
still materialized after it. -/
theorem pathExists_updateView (p₀ : List (String × MValue)) :
    ∀ (f : Option PrioritySubsetImpl → Option PrioritySubsetImpl) (m : LbSubsetMap)
      (p : List (String × MValue)), p₀ ≠ [] → pathExists p m →
      pathExists p (updateView p₀ f m) := by
  induction p₀ with
  | nil => intro f m p hp₀ _; exact absurd rfl hp₀
  | cons c₀ t₀ ih =>
    intro f m p _ hex
    cases p with
    | nil => simp [pathExists, traverse] at hex
    | cons c t =>
      cases t₀ with
      | nil =>
        rw [updateView_single] at *
        cases t with
        | nil =>
          by_cases hc : c = c₀
          · subst hc
            simp [pathExists, traverse_single, lookup1_assocSet_self]
          · simpa [pathExists, traverse_single, lookup1_assocSet_other _ _ _ _ hc] using hex
        | cons d ts =>
          rw [pathExists, traverse_cons2] at hex ⊢
          by_cases hc : c = c₀
          · subst hc
            cases hl : lookup1 m c with
            | none => rw [hl] at hex; simp at hex
            | some e =>
              rw [hl] at hex
              rw [lookup1_assocSet_self]
              simpa [entry1, hl] using hex
          · rw [lookup1_assocSet_other _ _ _ _ hc]
            exact hex
      | cons d₀ ts₀ =>
        rw [updateView_cons2] at *
        cases t with
        | nil =>
          by_cases hc : c = c₀
          · subst hc
            simp [pathExists, traverse_single, lookup1_assocSet_self]
          · simpa [pathExists, traverse_single, lookup1_assocSet_other _ _ _ _ hc] using hex
        | cons d ts =>
          rw [pathExists, traverse_cons2] at hex ⊢
          by_cases hc : c = c₀
          · subst hc
            cases hl : lookup1 m c with
            | none => rw [hl] at hex; simp at hex
            | some e =>
              rw [hl] at hex
              rw [lookup1_assocSet_self]
              simp only [Option.some_bind, children_mk] at hex ⊢
              have := ih f e.children (d :: ts) (by simp) hex
              simpa [entry1, hl] using this
          · rw [lookup1_assocSet_other _ _ _ _ hc]
            exact hex

/-- New paths materialized by a trie update are prefixes of the updated
path. -/
theorem pathExists_updateView_inv (p₀ : List (String × MValue)) :
    ∀ (f : Option PrioritySubsetImpl → Option PrioritySubsetImpl) (m : LbSubsetMap)
      (p : List (String × MValue)), p₀ ≠ [] →
      pathExists p (updateView p₀ f m) → pathExists p m ∨ p <+: p₀ := by
  induction p₀ with
  | nil => intro f m p hp₀ _; exact absurd rfl hp₀
  | cons c₀ t₀ ih =>
    intro f m p _ hex
    cases p with
    | nil => simp [pathExists, traverse] at hex
    | cons c t =>
      cases t₀ with
      | nil =>
        rw [updateView_single] at hex
        cases t with
        | nil =>
          by_cases hc : c = c₀
          · subst hc
            exact Or.inr (List.prefix_refl _)
          · rw [pathExists, traverse_single,
              lookup1_assocSet_other _ _ _ _ hc] at hex
            exact Or.inl hex
        | cons d ts =>
          rw [pathExists, traverse_cons2] at hex
          by_cases hc : c = c₀
          · subst hc
            rw [lookup1_assocSet_self] at hex
            simp only [Option.some_bind, children_mk] at hex
            cases hl : lookup1 m c with
            | none =>
              simp only [entry1, hl, Option.getD_none, children_mk] at hex
              simp [traverse_nil_map] at hex
            | some e =>
              simp only [entry1, hl, Option.getD_some] at hex
              refine Or.inl ?_
              rw [pathExists, traverse_cons2, hl]
              simpa using hex
          · rw [lookup1_assocSet_other _ _ _ _ hc] at hex
            exact Or.inl hex
      | cons d₀ ts₀ =>
        rw [updateView_cons2] at hex
        cases t with
        | nil =>
          by_cases hc : c = c₀
          · subst hc
            exact Or.inr ⟨d₀ :: ts₀, rfl⟩
          · rw [pathExists, traverse_single,
              lookup1_assocSet_other _ _ _ _ hc] at hex
            exact Or.inl hex
        | cons d ts =>
          rw [pathExists, traverse_cons2] at hex
          by_cases hc : c = c₀
          · subst hc
            rw [lookup1_assocSet_self] at hex
            simp only [Option.some_bind, children_mk] at hex
            rcases ih f (entry1 m c).children (d :: ts) (by simp) hex with h | h
            · cases hl : lookup1 m c with
              | none =>
                simp only [entry1, hl, Option.getD_none, children_mk] at h
                simp [pathExists, traverse_nil_map] at h
              | some e =>
                refine Or.inl ?_
                rw [pathExists, traverse_cons2, hl]
                simp only [entry1, hl, Option.getD_some] at h
                simpa using h
            · exact Or.inr (List.cons_prefix_cons.mpr ⟨rfl, h⟩)
          · rw [lookup1_assocSet_other _ _ _ _ hc] at hex
            exact Or.inl hex

/-- Fold form of the central trie lemma: folding independent per-path
updates over a duplicate-free list of paths applies each path's update once
and leaves other paths untouched. -/
theorem viewAt_foldl (g : SubsetMetadata → Option PrioritySubsetImpl → Option PrioritySubsetImpl)
    (ps : List SubsetMetadata) :
    ∀ (m : LbSubsetMap) (p : SubsetMetadata), (∀ p₀ ∈ ps, p₀ ≠ []) → ps.Nodup → p ≠ [] →
      viewAt (ps.foldl (fun acc p₀ => updateView p₀ (g p₀) acc) m) p =
        if p ∈ ps then g p (viewAt m p) else viewAt m p := by
  induction ps with
  | nil => intro m p _ _ _; simp
  | cons x xs ih =>
    intro m p hne hnd hp
    have hxnotin : x ∉ xs := (List.nodup_cons.mp hnd).1
    rw [List.foldl_cons]
    rw [ih (updateView x (g x) m) p (fun p₀ h => hne p₀ (List.mem_cons_of_mem _ h))
      (List.nodup_cons.mp hnd).2 hp]
    rw [viewAt_updateView x (g x) m p (hne x (List.mem_cons_self _ _)) hp]
    by_cases hmem : p ∈ xs
    · have hpx : p ≠ x := fun h => hxnotin (h ▸ hmem)
      simp [hmem, hpx]
    · by_cases hpx : p = x
      · subst hpx
        simp [hxnotin]
      · simp [hmem, hpx]

theorem pathExists_foldl (g : SubsetMetadata → Option PrioritySubsetImpl → Option PrioritySubsetImpl)
    (ps : List SubsetMetadata) :
    ∀ (m : LbSubsetMap) (p : SubsetMetadata), (∀ p₀ ∈ ps, p₀ ≠ []) →
      pathExists p m →
      pathExists p (ps.foldl (fun acc p₀ => updateView p₀ (g p₀) acc) m) := by
  induction ps with
  | nil => intro m p _ h; simpa using h
  | cons x xs ih =>
    intro m p hne h
    rw [List.foldl_cons]
    exact ih _ p (fun p₀ hm => hne p₀ (List.mem_cons_of_mem _ hm))
      (pathExists_updateView x (g x) m p (hne x (List.mem_cons_self _ _)) h)

theorem pathExists_foldl_inv (g : SubsetMetadata → Option PrioritySubsetImpl → Option PrioritySubsetImpl)
    (ps : List SubsetMetadata) :
    ∀ (m : LbSubsetMap) (p : SubsetMetadata), (∀ p₀ ∈ ps, p₀ ≠ []) →
      pathExists p (ps.foldl (fun acc p₀ => updateView p₀ (g p₀) acc) m) →
      pathExists p m ∨ ∃ p₀ ∈ ps, p <+: p₀ := by
  induction ps with
  | nil => intro m p _ h; exact Or.inl (by simpa using h)
  | cons x xs ih =>
    intro m p hne h
    rw [List.foldl_cons] at h
    rcases ih _ p (fun p₀ hm => hne p₀ (List.mem_cons_of_mem _ hm)) h with h1 | h1
    · rcases pathExists_updateView_inv x (g x) m p (hne x (List.mem_cons_self _ _)) h1 with h2 | h2
      · exact Or.inl h2
      · exact Or.inr ⟨x, List.mem_cons_self _ _, h2⟩
    · obtain ⟨p₀, hp₀, hpre⟩ := h1
      exact Or.inr ⟨p₀, List.mem_cons_of_mem _ hp₀, hpre⟩

/-- Characterization of findSubset by pure descent and activity: it yields
an entry exactly when the whole path exists and the terminal entry is
active. -/
theorem findSubset_iff (p : List (String × MValue)) :
    ∀ (m : LbSubsetMap) (e : LbSubsetEntry),
      findSubset p m = some e ↔ (traverse p m = some e ∧ e.active = true) := by
  induction p with
  | nil => intro m e; simp [findSubset, traverse]
  | cons c t ih =>
    intro m e
    cases t with
    | nil =>
      show (match lookup1 m c with
        | none => none
        | some e' => if e'.active then some e' else none) = some e ↔ _
      rw [traverse_single]
      cases hl : lookup1 m c with
      | none => simp
      | some e' =>
        by_cases ha : e'.active
        · simp only [ha, if_true]
          constructor
          · intro h
            cases h
            exact ⟨rfl, ha⟩
          · intro ⟨h1, _⟩
            cases h1
            rfl
        · simp only [ha, if_false]
          constructor
          · intro h; cases h
          · intro ⟨h1, h2⟩
            cases h1
            exact absurd h2 (by simp [ha])
    | cons d ts =>
      show (match lookup1 m c with
        | none => none
        | some e' => findSubset (d :: ts) e'.children) = some e ↔ _
      rw [traverse_cons2]
      cases hl : lookup1 m c with
      | none => simp
      | some e' => simpa using ih e'.children e

theorem findOrCreateSubset_single (c : String × MValue) (m : LbSubsetMap) :
    findOrCreateSubset [c] m =
      (assocSet m c.1 (assocSet ((assocFind m c.1).getD []) c.2 (entry1 m c)),
        entry1 m c) := by
  cases hfk : assocFind m c.1 <;> simp [findOrCreateSubset, entry1, lookup1, hfk]

theorem findOrCreateSubset_cons2 (c d : String × MValue)
    (ts : List (String × MValue)) (m : LbSubsetMap) :
    findOrCreateSubset (c :: d :: ts) m =
      (assocSet m c.1 (assocSet ((assocFind m c.1).getD []) c.2
          (.mk (findOrCreateSubset (d :: ts) (entry1 m c).children).1
            (entry1 m c).priority_subset_)),
        (findOrCreateSubset (d :: ts) (entry1 m c).children).2) := by
  cases hfk : assocFind m c.1 <;> simp [findOrCreateSubset, entry1, lookup1, hfk]

/-- Round trip: after findOrCreateSubset, pure descent at the same path
yields exactly the entry that findOrCreateSubset returned. -/
theorem traverse_findOrCreateSubset (p : List (String × MValue)) :
    ∀ (m : LbSubsetMap), p ≠ [] →
      traverse p (findOrCreateSubset p m).1 = some (findOrCreateSubset p m).2 := by
  induction p with
  | nil => intro m hp; exact absurd rfl hp
  | cons c t ih =>
    intro m _
    cases t with
    | nil =>
      rw [findOrCreateSubset_single]
      simp [traverse_single, lookup1_assocSet_self]
    | cons d ts =>
      rw [findOrCreateSubset_cons2]
      simp only [traverse_cons2, lookup1_assocSet_self, Option.some_bind, children_mk]
      exact ih (entry1 m c).children (by simp)

/-! ### List filter helper lemmas -/

theorem filter_comm {α : Type} (l : List α) (f g : α → Bool) :
    (l.filter f).filter g = (l.filter g).filter f := by
  induction l with
  | nil => rfl
  | cons x t ih => cases hf : f x <;> cases hg : g x <;> simp [List.filter_cons, hf, hg, ih]

theorem filter_eq_nil_iff_mem {α : Type} (l : List α) (f : α → Bool) :
    l.filter f = [] ↔ ∀ a ∈ l, f a = false := by
  induction l with
  | nil => simp
  | cons x t ih => cases hx : f x <;> simp [List.filter_cons, hx, ih]

theorem filter_congr_mem {α : Type} (l : List α) (f g : α → Bool)
    (h : ∀ a ∈ l, f a = g a) : l.filter f = l.filter g := by
  induction l with
  | nil => rfl
  | cons x t ih =>
    rw [List.filter_cons, List.filter_cons, h x (List.mem_cons_self x t),
      ih fun a ha => h a (List.mem_cons_of_mem x ha)]

theorem filter_eq_self_mem {α : Type} (l : List α) (f : α → Bool)
    (h : ∀ a ∈ l, f a = true) : l.filter f = l := by
  induction l with
  | nil => rfl
  | cons x t ih =>
    rw [List.filter_cons, h x (List.mem_cons_self x t)]
    simp only [if_true]
    rw [ih fun a ha => h a (List.mem_cons_of_mem x ha)]

/-! ### Computation lemmas for the priority subset operations -/

theorem psUpdate_getD_self (ps : PrioritySubsetImpl) (q : Nat)
    (added removed : List Host) (p : SubsetMetadata) (h : q < ps.hostSets.length) :
    (psUpdate ps q added removed p).hostSets.getD q [] =
      ((ps.hostSets.getD q []).filter fun x => !decide (x ∈ removed)) ++
        added.filter (hostMatches p) := by
  simp only [psUpdate]
  exact getD_set_self _ _ _ _ h

theorem psUpdate_getD_ne (ps : PrioritySubsetImpl) (q q' : Nat)
    (added removed : List Host) (p : SubsetMetadata) (h : q' ≠ q) :
    (psUpdate ps q added removed p).hostSets.getD q' [] = ps.hostSets.getD q' [] := by
  simp only [psUpdate]
  exact getD_set_ne _ _ _ _ _ h

theorem psUpdate_length (ps : PrioritySubsetImpl) (q : Nat)
    (added removed : List Host) (p : SubsetMetadata) :
    (psUpdate ps q added removed p).hostSets.length = ps.hostSets.length := by
  simp [psUpdate]

theorem psUpdate_empty_eq (ps : PrioritySubsetImpl) (q : Nat)
    (added removed : List Host) (p : SubsetMetadata) :
    (psUpdate ps q added removed p).empty_ =
      (psUpdate ps q added removed p).hostSets.all List.isEmpty := rfl

theorem psCreateFrom_getD (n : Nat) (auth : List (List Host)) (p : SubsetMetadata)
    (q : Nat) :
    (psCreateFrom n auth p).hostSets.getD q [] =
      if q < n then (auth.getD q []).filter (hostMatches p) else [] := by
  simp only [psCreateFrom]
  exact getD_map_range _ _ _ _

theorem psCreateFrom_length (n : Nat) (auth : List (List Host)) (p : SubsetMetadata) :
    (psCreateFrom n auth p).hostSets.length = n := by
  simp [psCreateFrom]

theorem psCreateFrom_empty_eq (n : Nat) (auth : List (List Host)) (p : SubsetMetadata) :
    (psCreateFrom n auth p).empty_ =
      (psCreateFrom n auth p).hostSets.all List.isEmpty := rfl

/-! ### The reachable-state invariant -/

theorem viewAt_nil_path (m : LbSubsetMap) : viewAt m [] = none := rfl

theorem viewAt_nil_map (p : List (String × MValue)) (hp : p ≠ []) :
    viewAt ([] : LbSubsetMap) p = none := by
  simp [viewAt, traverse_nil_map p hp]

theorem inv_init (cfg : LbConfig) : Inv cfg (initState cfg) := by
  refine ⟨by simp [initState], ?_, ?_, ?_⟩
  · intro p hsp
    have : viewAt (initState cfg).subsets p = none := by
      have : (initState cfg).subsets = [] := rfl
      rw [this, viewAt_nil_map p hsp.1]
    rw [this]
    intro q
    simp [authFilter, initState, getD_replicate_nil]
  · intro p ps hview
    by_cases hp : p = []
    · subst hp; rw [viewAt_nil_path] at hview; cases hview
    · have : (initState cfg).subsets = [] := rfl
      rw [this, viewAt_nil_map p hp] at hview
      cases hview
  · intro p hex
    by_cases hp : p = []
    · subst hp; simp [pathExists, traverse] at hex
    · have : (initState cfg).subsets = [] := rfl
      rw [this, pathExists, traverse_nil_map p hp] at hex
      simp at hex

theorem mem_touchedPaths_inv (selectors : List SelectorSpec)
    (added removed : List Host) (p : SubsetMetadata)
    (hp : p ∈ touchedPaths selectors added removed) :
    ∃ h ∈ added ++ removed, p ∈ hostTargets selectors h := by
  unfold touchedPaths at hp
  exact List.mem_flatMap.mp (List.mem_dedup.mp hp)

theorem touchedPaths_ne_nil (selectors : List SelectorSpec)
    (added removed : List Host) (p : SubsetMetadata)
    (hp : p ∈ touchedPaths selectors added removed) : p ≠ [] := by
  obtain ⟨h, -, hT⟩ := mem_touchedPaths_inv selectors added removed p hp
  exact (hostTargets_keys selectors h p hT).1

theorem authFilter_def (auth : List (List Host)) (p : SubsetMetadata) (q : Nat) :
    authFilter auth p q = (auth.getD q []).filter (hostMatches p) := rfl

/-- Preservation of the state invariant by one membership update. -/
theorem inv_update (cfg : LbConfig) (st : LbState) (q : Nat)
    (added removed : List Host) (hinv : Inv cfg st) (hq : q < cfg.numPriorities) :
    Inv cfg (update cfg st q added removed) := by
  set A := st.auth.set q (applyAuthDelta (st.auth.getD q []) added removed) with hAdef
  have hqlen : q < st.auth.length := by rw [hinv.authLen]; exact hq
  have hAq : A.getD q [] =
      ((st.auth.getD q []).filter fun x => !decide (x ∈ removed)) ++ added := by
    rw [hAdef]; exact getD_set_self _ _ _ _ hqlen
  have hAne : ∀ q', q' ≠ q → A.getD q' [] = st.auth.getD q' [] := fun q' h => by
    rw [hAdef]; exact getD_set_ne _ _ _ _ _ h
  have hAlen : A.length = cfg.numPriorities := by
    rw [hAdef, List.length_set, hinv.authLen]
  have hTne : ∀ p₀ ∈ touchedPaths cfg.selectors added removed, p₀ ≠ [] :=
    fun p₀ h => touchedPaths_ne_nil _ _ _ _ h
  have hTnd : (touchedPaths cfg.selectors added removed).Nodup := by
    unfold touchedPaths; exact List.nodup_dedup _
  have hF1 : ∀ p, p ≠ [] →
      viewAt (processSubsets cfg st.subsets A q added removed) p =
        if p ∈ touchedPaths cfg.selectors added removed then
          subsetStep cfg A q added removed p (viewAt st.subsets p)
        else viewAt st.subsets p :=
    fun p hp => viewAt_foldl (subsetStep cfg A q added removed)
      (touchedPaths cfg.selectors added removed) st.subsets p hTne hTnd hp
  refine ⟨?_, ?_, ?_, ?_⟩
  · show A.length = cfg.numPriorities
    exact hAlen
  · -- views
    intro p hsp
    obtain ⟨hpne, s, hs, hkeys⟩ := hsp
    have hsp' : SelectorPath cfg p := ⟨hpne, s, hs, hkeys⟩
    have hroute : ∀ h : Host, h ∈ added ++ removed → hostMatches p h = true →
        p ∈ touchedPaths cfg.selectors added removed := fun h hh hm =>
      mem_touchedPaths cfg.selectors added removed h p hh
        (mem_hostTargets_of_matches cfg.selectors s hs h p hkeys hpne hm)
    have hview0 := hinv.views p hsp'
    show viewOk A p (viewAt (processSubsets cfg st.subsets A q added removed) p)
    rw [hF1 p hpne]
    by_cases hpT : p ∈ touchedPaths cfg.selectors added removed
    · rw [if_pos hpT]
      cases hv : viewAt st.subsets p with
      | some ps =>
        rw [hv] at hview0
        have hlen : ps.hostSets.length = cfg.numPriorities := (hinv.shape p ps hv).1
        show ∀ q', (psUpdate ps q added removed p).hostSets.getD q' [] = authFilter A p q'
        intro q'
        by_cases hq' : q' = q
        · subst hq'
          rw [psUpdate_getD_self ps q' added removed p (by rw [hlen]; exact hq)]
          rw [(hview0 q').trans (authFilter_def _ _ _)]
          simp only [authFilter_def]
          rw [hAq, List.filter_append]
          congr 1
          exact filter_comm _ _ _
        · rw [psUpdate_getD_ne ps q q' added removed p hq']
          rw [hview0 q']
          simp only [authFilter_def]
          rw [hAne q' hq']
      | none =>
        rw [hv] at hview0
        simp only [subsetStep]
        by_cases hcond :
            (added.any fun h => decide (p ∈ hostTargets cfg.selectors h)) = true
        · rw [if_pos hcond]
          show ∀ q', (psCreateFrom cfg.numPriorities A p).hostSets.getD q' [] =
            authFilter A p q'
          intro q'
          rw [psCreateFrom_getD]
          by_cases hq' : q' < cfg.numPriorities
          · rw [if_pos hq']
            rfl
          · rw [if_neg hq']
            simp only [authFilter_def]
            rw [getD_eq_default_of_le _ _ _ (by rw [hAlen]; exact Nat.le_of_not_lt hq')]
            rfl
        · rw [if_neg hcond]
          show ∀ q', authFilter A p q' = []
          intro q'
          have hnoadd : ∀ h ∈ added, hostMatches p h = false := by
            intro h hh
            cases hmh : hostMatches p h
            · rfl
            · exfalso
              apply hcond
              refine List.any_eq_true.mpr ⟨h, hh, decide_eq_true ?_⟩
              exact mem_hostTargets_of_matches cfg.selectors s hs h p hkeys hpne hmh
          simp only [authFilter_def]
          by_cases hq' : q' = q
          · subst hq'
            rw [hAq, List.filter_append,
              (filter_eq_nil_iff_mem _ _).mpr hnoadd, List.append_nil,
              ← filter_comm,
              show (st.auth.getD q' []).filter (hostMatches p) = [] from hview0 q']
            rfl
          · rw [hAne q' hq']
            exact hview0 q'
    · rw [if_neg hpT]
      have hnom : ∀ h ∈ added ++ removed, hostMatches p h = false := by
        intro h hh
        cases hmh : hostMatches p h
        · rfl
        · exact absurd (hroute h hh hmh) hpT
      cases hv : viewAt st.subsets p with
      | some ps =>
        rw [hv] at hview0
        show ∀ q', ps.hostSets.getD q' [] = authFilter A p q'
        intro q'
        by_cases hq' : q' = q
        · subst hq'
          rw [hview0 q']
          simp only [authFilter_def]
          rw [hAq, List.filter_append,
            (filter_eq_nil_iff_mem _ _).mpr
              (fun a ha => hnom a (List.mem_append_left _ ha)),
            List.append_nil, ← filter_comm]
          refine (filter_eq_self_mem _ _ ?_).symm
          intro a ha
          have ham := List.mem_filter.mp ha
          by_cases har : a ∈ removed
          · exact absurd ham.2
              (by simp [hnom a (List.mem_append_right _ har)])
          · simp [har]
        · rw [hview0 q']
          simp only [authFilter_def]
          rw [hAne q' hq']
      | none =>
        rw [hv] at hview0
        show ∀ q', authFilter A p q' = []
        intro q'
        simp only [authFilter_def]
        by_cases hq' : q' = q
        · subst hq'
          rw [hAq, List.filter_append,
            (filter_eq_nil_iff_mem _ _).mpr
              (fun a ha => hnom a (List.mem_append_left _ ha)),
            List.append_nil, ← filter_comm,
            show (st.auth.getD q' []).filter (hostMatches p) = [] from hview0 q']
          rfl
        · rw [hAne q' hq']
          exact hview0 q'
  · -- shape
    intro p ps hview'
    by_cases hp : p = []
    · subst hp
      rw [show viewAt (update cfg st q added removed).subsets [] = none from rfl] at hview'
      cases hview'
    · rw [show (update cfg st q added removed).subsets =
          processSubsets cfg st.subsets A q added removed from rfl, hF1 p hp] at hview'
      by_cases hpT : p ∈ touchedPaths cfg.selectors added removed
      · rw [if_pos hpT] at hview'
        cases hv : viewAt st.subsets p with
        | some ps₀ =>
          rw [hv] at hview'
          simp only [subsetStep, Option.some.injEq] at hview'
          subst hview'
          refine ⟨?_, psUpdate_empty_eq _ _ _ _ _⟩
          rw [psUpdate_length]
          exact (hinv.shape p ps₀ hv).1
        | none =>
          rw [hv] at hview'
          simp only [subsetStep] at hview'
          by_cases hcond :
              (added.any fun h => decide (p ∈ hostTargets cfg.selectors h)) = true
          · rw [if_pos hcond] at hview'
            have heq : ps = psCreateFrom cfg.numPriorities A p :=
              (Option.some.inj hview').symm
            subst heq
            exact ⟨psCreateFrom_length _ _ _, psCreateFrom_empty_eq _ _ _⟩
          · rw [if_neg hcond] at hview'
            cases hview'
      · rw [if_neg hpT] at hview'
        exact hinv.shape p ps hview'
  · -- paths conform to configured selectors
    intro p hex
    by_cases hp : p = []
    · subst hp
      simp [pathExists, traverse] at hex
    · rw [show (update cfg st q added removed).subsets =
          processSubsets cfg st.subsets A q added removed from rfl] at hex
      rcases pathExists_foldl_inv (subsetStep cfg A q added removed)
          (touchedPaths cfg.selectors added removed) st.subsets p hTne hex with h1 | h1
      · exact hinv.pathsConf p h1
      · obtain ⟨p₀, hp₀, hpre⟩ := h1
        obtain ⟨h, -, hT⟩ := mem_touchedPaths_inv cfg.selectors added removed p₀ hp₀
        obtain ⟨-, s, hs, hkeys⟩ := hostTargets_keys cfg.selectors h p₀ hT
        obtain ⟨t, rfl⟩ := hpre
        refine ⟨s, hs, ?_⟩
        rw [← hkeys, List.map_append]
        exact ⟨t.map Prod.fst, rfl⟩

/-- The invariant holds after any run of membership deltas. -/
theorem inv_foldl (cfg : LbConfig) (deltas : List Delta) :
    ∀ st, Inv cfg st → (∀ d ∈ deltas, d.priority < cfg.numPriorities) →
      Inv cfg (deltas.foldl (fun s d => update cfg s d.priority d.added d.removed) st) := by
  induction deltas with
  | nil => intro st h _; simpa using h
  | cons d ds ih =>
    intro st h hd
    rw [List.foldl_cons]
    exact ih _ (inv_update cfg st d.priority d.added d.removed h
      (hd d (List.mem_cons_self _ _)))
      fun d' hd' => hd d' (List.mem_cons_of_mem _ hd')

theorem inv_runDeltas (cfg : LbConfig) (deltas : List Delta)
    (hd : ∀ d ∈ deltas, d.priority < cfg.numPriorities) :
    Inv cfg (runDeltas cfg deltas) :=
  inv_foldl cfg deltas (initState cfg) (inv_init cfg) hd

theorem viewAt_eq_of_traverse (m : LbSubsetMap) (p : List (String × MValue))
    (e : LbSubsetEntry) (ht : traverse p m = some e) :
    viewAt m p = e.priority_subset_ := by
  simp [viewAt, ht]

theorem authFilter_ne_nil_iff (auth : List (List Host)) (p : SubsetMetadata) (q : Nat) :
    authFilter auth p q ≠ [] ↔ ∃ h ∈ auth.getD q [], hostMatches p h = true := by
  constructor
  · intro hne
    rw [authFilter_def] at hne
    cases hl : List.filter (hostMatches p) (auth.getD q []) with
    | nil => exact absurd hl hne
    | cons x xs =>
      have hx : x ∈ List.filter (hostMatches p) (auth.getD q []) := by
        rw [hl]; exact List.mem_cons_self _ _
      have := List.mem_filter.mp hx
      exact ⟨x, this.1, this.2⟩
  · rintro ⟨h, hmem, hm⟩ hnil
    rw [authFilter_def] at hnil
    have : h ∈ List.filter (hostMatches p) (auth.getD q []) :=
      List.mem_filter.mpr ⟨hmem, hm⟩
    rw [hnil] at this
    cases this

/-- In an invariant-satisfying state, the entry at a selector path is active
exactly when some authoritative host at some priority matches the path. -/
theorem activeAt_iff_members (cfg : LbConfig) (st : LbState) (hinv : Inv cfg st)
    (p : SubsetMetadata) (hsp : SelectorPath cfg p) :
    activeAt st p = true ↔
      ∃ q h, h ∈ st.auth.getD q [] ∧ hostMatches p h = true := by
  have hview := hinv.views p hsp
  unfold activeAt
  cases htrav : traverse p st.subsets with
  | none =>
    have hva : viewAt st.subsets p = none := by simp [viewAt, htrav]
    rw [hva] at hview
    constructor
    · intro hfalse; cases hfalse
    · rintro ⟨q, h, hmem, hmatch⟩
      exact absurd (hview q) ((authFilter_ne_nil_iff _ _ _).mpr ⟨h, hmem, hmatch⟩)
  | some e =>
    cases hps : e.priority_subset_ with
    | none =>
      have hva : viewAt st.subsets p = none := by
        rw [viewAt_eq_of_traverse _ _ _ htrav, hps]
      rw [hva] at hview
      have hact : e.active = false := by
        simp [LbSubsetEntry.active, LbSubsetEntry.initialized, hps]
      show e.active = true ↔ _
      rw [hact]
      constructor
      · intro hfalse; cases hfalse
      · rintro ⟨q, h, hmem, hmatch⟩
        exact absurd (hview q) ((authFilter_ne_nil_iff _ _ _).mpr ⟨h, hmem, hmatch⟩)
    | some ps =>
      have hva : viewAt st.subsets p = some ps := by
        rw [viewAt_eq_of_traverse _ _ _ htrav, hps]
      rw [hva] at hview
      have hshape := (hinv.shape p ps hva).2
      have hact : e.active = !ps.hostSets.all List.isEmpty := by
        simp [LbSubsetEntry.active, LbSubsetEntry.initialized, hps,
          PrioritySubsetImpl.empty, hshape]
      show e.active = true ↔ _
      rw [hact]
      constructor
      · intro hb
        have hnall : ps.hostSets.all List.isEmpty = false := by
          cases hall : ps.hostSets.all List.isEmpty
          · rfl
          · rw [hall] at hb; cases hb
        have hnot : ¬ ∀ q, ps.hostSets.getD q [] = [] := fun hqa => by
          rw [(all_isEmpty_iff_getD _).mpr hqa] at hnall
          cases hnall
        push_neg at hnot
        obtain ⟨q, hqne⟩ := hnot
        rw [hview q] at hqne
        obtain ⟨h, hmem, hm⟩ := (authFilter_ne_nil_iff _ _ _).mp hqne
        exact ⟨q, h, hmem, hm⟩
      · rintro ⟨q, h, hmem, hmatch⟩
        have hmf : authFilter st.auth p q ≠ [] :=
          (authFilter_ne_nil_iff _ _ _).mpr ⟨h, hmem, hmatch⟩
        rw [← hview q] at hmf
        have hnall : ps.hostSets.all List.isEmpty = false := by
          cases hall : ps.hostSets.all List.isEmpty
          · rfl
          · exact absurd ((all_isEmpty_iff_getD _).mp hall q) hmf
        simp [hnall]

theorem resolveSubset_some_crits (cfg : LbConfig) (st : LbState) (ctx : LbContext)
    (crits : List (String × MValue)) (hc : ctx.matchCriteria = some crits) :
    resolveSubset cfg st ctx =
      match findSubset crits st.subsets with
      | some e => some (.exactMatch, e)
      | none =>
        match tryFindSelectorFallbackPolicy cfg.selectors (crits.map Prod.fst) with
        | some .ANY_ENDPOINT => st.selectorFallbackAny.map fun e => (.selectorAny, e)
        | some .DEFAULT_SUBSET => st.selectorFallbackDefault.map fun e => (.selectorDefault, e)
        | some .NO_FALLBACK => resolveClusterFallback cfg st
        | none => resolveClusterFallback cfg st := by
  unfold resolveSubset
  rw [hc]

/-! ### The claims -/

/-- Claim C1: for every host h and every configured selector s whose key set
is contained in the keys of h's metadata, after any sequence of add/remove
membership deltas processed by update/processSubsets, h is a member of the
priority subset at the trie path built from sorted(s.keys) with h's metadata
values if and only if h is currently a member of the authoritative
per-priority host set (h's metadata trivially still matches its own path);
and hosts are indexed only under configured selector key combinations, never
under the power set of their metadata keys. -/
theorem subset_indexing_correct (cfg : LbConfig) (deltas : List Delta)
    (hd : ∀ d ∈ deltas, d.priority < cfg.numPriorities)
    (s : SelectorSpec) (hs : s ∈ cfg.selectors)
    (hsorted : List.Chain' (· < ·) s.keys)
    (h : Host) (p : SubsetMetadata)
    (hx : extractSubsetMetadata s.keys h.metadata = some p) (hpne : p ≠ [])
    (q : Nat) :
    (memberView (runDeltas cfg deltas) p q h = true ↔
      (h ∈ (runDeltas cfg deltas).auth.getD q [] ∧ hostMatches p h = true)) ∧
    (∀ p', pathExists p' (runDeltas cfg deltas).subsets →
      ∃ s' ∈ cfg.selectors, p'.map Prod.fst <+: s'.keys) := by
  have hinv := inv_runDeltas cfg deltas hd
  constructor
  · have hsp : SelectorPath cfg p := ⟨hpne, s, hs, (extract_spec _ _ _ hx).1⟩
    have hview := hinv.views p hsp
    unfold memberView
    cases hv : viewAt (runDeltas cfg deltas).subsets p with
    | some ps =>
      rw [hv] at hview
      show decide (h ∈ ps.hostSets.getD q []) = true ↔ _
      rw [hview q]
      simp [authFilter_def, List.mem_filter]
    | none =>
      rw [hv] at hview
      constructor
      · intro hfalse; cases hfalse
      · rintro ⟨hmem, hmatch⟩
        exact absurd (hview q) ((authFilter_ne_nil_iff _ _ _).mpr ⟨h, hmem, hmatch⟩)
  · exact hinv.pathsConf

theorem subset_indexing_correct_witness :
    memberView (runDeltas sampleCfg sampleDeltas) pathProd 0 hostA = true := by
  have h := subset_indexing_correct sampleCfg sampleDeltas (by decide)
    sampleSelector (by decide) (by simp [sampleSelector]) hostA pathProd rfl
    (by decide) 0
  exact h.1.mpr (by decide)

/-- Claim C2: chooseHost resolves in fixed precedence order — an active
exact match wins; otherwise a configured selector matching the request's key
names applies its own fallback policy (ANY_ENDPOINT via the unfiltered
selector fallback subset, DEFAULT_SUBSET via the default-metadata selector
fallback subset, NO_FALLBACK resolving nothing at that stage); only when no
selector-level resolution occurred is the cluster-wide fallback applied, so
a selector with a non-NO_FALLBACK policy is never bypassed in favor of the
cluster-wide fallback. -/
theorem chooseHost_precedence (cfg : LbConfig) (st : LbState) (ctx : LbContext)
    (crits : List (String × MValue)) (hc : ctx.matchCriteria = some crits) :
    (∀ e, findSubset crits st.subsets = some e →
        resolveSubset cfg st ctx = some (.exactMatch, e)) ∧
    (findSubset crits st.subsets = none →
      ((tryFindSelectorFallbackPolicy cfg.selectors (crits.map Prod.fst) =
          some .ANY_ENDPOINT →
          resolveSubset cfg st ctx = st.selectorFallbackAny.map fun e => (.selectorAny, e)) ∧
       (tryFindSelectorFallbackPolicy cfg.selectors (crits.map Prod.fst) =
          some .DEFAULT_SUBSET →
          resolveSubset cfg st ctx =
            st.selectorFallbackDefault.map fun e => (.selectorDefault, e)) ∧
       (tryFindSelectorFallbackPolicy cfg.selectors (crits.map Prod.fst) =
            some .NO_FALLBACK ∨
          tryFindSelectorFallbackPolicy cfg.selectors (crits.map Prod.fst) = none →
          resolveSubset cfg st ctx = resolveClusterFallback cfg st))) := by
  refine ⟨fun e hf => ?_, fun hf => ⟨fun hp => ?_, fun hp => ?_, fun hp => ?_⟩⟩
  · rw [resolveSubset_some_crits cfg st ctx crits hc, hf]
  · rw [resolveSubset_some_crits cfg st ctx crits hc, hf, hp]
  · rw [resolveSubset_some_crits cfg st ctx crits hc, hf, hp]
  · rcases hp with hp | hp <;> rw [resolveSubset_some_crits cfg st ctx crits hc, hf, hp]

theorem chooseHost_precedence_witness :
    resolveSubset sampleCfg (initState sampleCfg) ⟨some pathCanary, 0⟩ =
      (initState sampleCfg).selectorFallbackAny.map fun e => (.selectorAny, e) := by
  have h := chooseHost_precedence sampleCfg (initState sampleCfg)
    ⟨some pathCanary, 0⟩ pathCanary rfl
  exact (h.2 (by rfl)).1 (by rfl)

/-- Claim C3: findSubset descends the dynamic trie one (key, value) level
per criterion in the criteria's given order and returns the terminal entry
exactly when every level exists and that entry is active; a missing level or
an inactive (uninitialized or initialized-but-empty) terminal entry yields
none. -/
theorem findSubset_trie_descent (crits : List (String × MValue)) (m : LbSubsetMap) :
    (∀ e, findSubset crits m = some e ↔
      (traverse crits m = some e ∧ e.active = true)) ∧
    (traverse crits m = none → findSubset crits m = none) ∧
    (∀ e, traverse crits m = some e → e.active = false → findSubset crits m = none) := by
  refine ⟨fun e => findSubset_iff crits m e, ?_, ?_⟩
  · intro ht
    cases hf : findSubset crits m with
    | none => rfl
    | some e =>
      have := ((findSubset_iff crits m e).mp hf).1
      rw [ht] at this
      cases this
  · intro e ht ha
    cases hf : findSubset crits m with
    | none => rfl
    | some e' =>
      obtain ⟨ht', ha'⟩ := (findSubset_iff crits m e').mp hf
      rw [ht] at ht'
      cases Option.some.inj ht'
      rw [ha] at ha'
      cases ha'

theorem findSubset_trie_descent_witness :
    findSubset [("color", MValue.nullV)] (runDeltas sampleCfg sampleDeltas).subsets =
      none := by
  have h := findSubset_trie_descent [("color", MValue.nullV)]
    (runDeltas sampleCfg sampleDeltas).subsets
  exact h.2.1 (by rfl)

/-- Claim C4: initialized() holds exactly when the entry owns a priority
subset, active() holds exactly when the entry is initialized and its view
contains at least one host at some priority; and for a selector path of a
reachable state, active() is true exactly when some currently authoritative
host matches the path — so it is false after an update removing the last
member at every priority and true again after an update adding a matching
host, with no third state. -/
theorem entry_initialized_active_iff (cfg : LbConfig) (deltas : List Delta)
    (hd : ∀ d ∈ deltas, d.priority < cfg.numPriorities) :
    (∀ p e, traverse p (runDeltas cfg deltas).subsets = some e →
      ((e.initialized = true ↔ ∃ ps, e.priority_subset_ = some ps) ∧
       (e.active = true ↔ e.initialized = true ∧
         ∃ ps, e.priority_subset_ = some ps ∧ ∃ q, ps.hostSets.getD q [] ≠ []))) ∧
    (∀ p, SelectorPath cfg p →
      (activeAt (runDeltas cfg deltas) p = true ↔
        ∃ q h, h ∈ (runDeltas cfg deltas).auth.getD q [] ∧ hostMatches p h = true)) := by
  have hinv := inv_runDeltas cfg deltas hd
  constructor
  · intro p e htrav
    constructor
    · simp [LbSubsetEntry.initialized, Option.isSome_iff_exists]
    · cases hps : e.priority_subset_ with
      | none => simp [LbSubsetEntry.active, LbSubsetEntry.initialized, hps]
      | some ps =>
        have hva : viewAt (runDeltas cfg deltas).subsets p = some ps := by
          rw [viewAt_eq_of_traverse _ _ _ htrav, hps]
        have hshape := (hinv.shape p ps hva).2
        have hact : e.active = !ps.hostSets.all List.isEmpty := by
          simp [LbSubsetEntry.active, LbSubsetEntry.initialized, hps,
            PrioritySubsetImpl.empty, hshape]
        rw [hact]
        constructor
        · intro hb
          have hnall : ps.hostSets.all List.isEmpty = false := by
            cases hall : ps.hostSets.all List.isEmpty
            · rfl
            · rw [hall] at hb; cases hb
          refine ⟨by simp [LbSubsetEntry.initialized, hps], ps, rfl, ?_⟩
          by_contra hcon
          push_neg at hcon
          rw [(all_isEmpty_iff_getD _).mpr hcon] at hnall
          cases hnall
        · rintro ⟨-, ps', hps', q, hqne⟩
          have hpsps : ps' = ps := (Option.some.inj hps').symm
          rw [hpsps] at hqne
          have hnall : ps.hostSets.all List.isEmpty = false := by
            cases hall : ps.hostSets.all List.isEmpty
            · rfl
            · exact absurd ((all_isEmpty_iff_getD _).mp hall q) hqne
          rw [hnall]
          rfl
  · intro p hsp
    exact activeAt_iff_members cfg (runDeltas cfg deltas) hinv p hsp

theorem entry_initialized_active_iff_witness :
    activeAt (runDeltas sampleCfg sampleDeltas) pathProd = true := by
  have h := entry_initialized_active_iff sampleCfg sampleDeltas (by decide)
  exact (h.2 pathProd ⟨by decide, sampleSelector, by decide, by decide⟩).mpr
    ⟨0, hostA, by decide, by decide⟩

/-- Claim C5: for an entry created at a sorted (key, value) path via
findOrCreateSubset, if that entry is active then findSubset applied to the
same path returns that exact entry — path construction and lookup round
trip. -/
theorem findOrCreate_findSubset_roundtrip (kvs : List (String × MValue))
    (m : LbSubsetMap) (hne : kvs ≠ []) :
    traverse kvs (findOrCreateSubset kvs m).1 = some (findOrCreateSubset kvs m).2 ∧
    ((findOrCreateSubset kvs m).2.active = true →
      findSubset kvs (findOrCreateSubset kvs m).1 = some (findOrCreateSubset kvs m).2) := by
  refine ⟨traverse_findOrCreateSubset kvs m hne, fun ha => ?_⟩
  exact (findSubset_iff kvs _ _).mpr ⟨traverse_findOrCreateSubset kvs m hne, ha⟩

theorem findOrCreate_findSubset_roundtrip_witness :
    traverse pathProd (findOrCreateSubset pathProd []).1 =
      some (findOrCreateSubset pathProd []).2 :=
  (findOrCreate_findSubset_roundtrip pathProd [] (by decide)).1

/-- Claim C6: determineLocalityWeights with locality-aware weighting and
scaling enabled returns, for each locality with n original hosts, k retained
hosts and original weight w, the scaled weight w * k / n — so k = 0 yields
weight 0, k = n (with n positive) leaves the weight unchanged, and a zero
original weight stays zero; with scaling disabled it returns the original
weights unchanged regardless of k and n. -/
theorem determineLocalityWeights_scaling (origLoc : List (List Host))
    (pred : Host → Bool) (ws : List Nat) (i : Nat) (hi : i < ws.length) :
    ∃ scaled, determineLocalityWeights true true origLoc pred ws = some scaled ∧
      scaled.getD i 0 =
        ws.getD i 0 * ((origLoc.getD i []).filter pred).length /
          (origLoc.getD i []).length ∧
      (((origLoc.getD i []).filter pred).length = 0 → scaled.getD i 0 = 0) ∧
      (ws.getD i 0 = 0 → scaled.getD i 0 = 0) ∧
      (((origLoc.getD i []).filter pred).length = (origLoc.getD i []).length →
        0 < (origLoc.getD i []).length → scaled.getD i 0 = ws.getD i 0) ∧
      determineLocalityWeights true false origLoc pred ws = some ws := by
  have hval := getD_map_range ws.length i
    (fun j => ws.getD j 0 * ((origLoc.getD j []).filter pred).length /
      (origLoc.getD j []).length) 0
  rw [if_pos hi] at hval
  refine ⟨_, rfl, hval, ?_, ?_, ?_, rfl⟩
  · intro hk
    rw [hval, hk]
    simp
  · intro hw
    rw [hval, hw]
    simp
  · intro hk hn
    rw [hval, hk]
    exact Nat.mul_div_cancel _ hn

theorem determineLocalityWeights_scaling_witness :
    ∃ scaled, determineLocalityWeights true true [[hostA, hostB]]
        (fun h => decide (h = hostA)) [10] = some scaled ∧ scaled.getD 0 0 = 5 := by
  obtain ⟨scaled, h1, h2, -⟩ := determineLocalityWeights_scaling [[hostA, hostB]]
    (fun h => decide (h = hostA)) [10] 0 (by decide)
  refine ⟨scaled, h1, ?_⟩
  rw [h2]
  decide

/-- Claim C7: when the subset resolved by chooseHost (exact match, selector
fallback or cluster-wide fallback) has no hosts at the requested priority,
chooseHost returns no host and does not chain to any further fallback
subset; no panic-threshold or cross-priority failover is performed by the
core itself. -/
theorem chooseHost_empty_resolved_subset (alg : List Host → Option Host)
    (cfg : LbConfig) (st : LbState) (ctx : LbContext) :
    (∀ stage e, resolveSubset cfg st ctx = some (stage, e) →
      entryHostsAt e ctx.priority = [] → chooseHost alg cfg st ctx = none) ∧
    (resolveSubset cfg st ctx = none → chooseHost alg cfg st ctx = none) := by
  constructor
  · intro stage e hres hemp
    unfold chooseHost
    rw [hres]
    simp [hemp]
  · intro hres
    unfold chooseHost
    rw [hres]

theorem chooseHost_empty_resolved_subset_witness :
    chooseHost List.head? sampleCfg (initState sampleCfg) ⟨none, 0⟩ = none := by
  have h := chooseHost_empty_resolved_subset List.head? sampleCfg
    (initState sampleCfg) ⟨none, 0⟩
  exact h.1 .clusterFallback (.mk [] (some (psNew 1))) (by rfl) (by rfl)

/-- Claim C8: if two configured selectors declare an identical key set,
construction of the load balancer fails (the configuration is rejected)
rather than one selector's fallback policy silently taking precedence. -/
theorem duplicate_selector_keys_rejected (cfg : LbConfig)
    (l₁ l₂ l₃ : List SelectorSpec) (s t : SelectorSpec)
    (hsel : cfg.selectors = l₁ ++ s :: l₂ ++ t :: l₃)
    (hkeys : s.keys = t.keys) : mkSubsetLoadBalancer cfg = none := by
  have hdup : hasDuplicateKeySets cfg.selectors = true := by
    rw [hsel]
    clear hsel
    induction l₁ with
    | nil =>
      have h1 : ((l₂ ++ t :: l₃).any fun u => decide (u.keys = s.keys)) = true :=
        List.any_eq_true.mpr
          ⟨t, List.mem_append_right _ (List.mem_cons_self _ _),
            decide_eq_true hkeys.symm⟩
      simp [hasDuplicateKeySets, h1]
    | cons x xs ih =>
      show hasDuplicateKeySets (x :: (xs ++ s :: l₂ ++ t :: l₃)) = true
      have ih' : hasDuplicateKeySets (xs ++ s :: (l₂ ++ t :: l₃)) = true := by
        simpa using ih
      simp [hasDuplicateKeySets, ih']
  simp [mkSubsetLoadBalancer, hdup]

theorem duplicate_selector_keys_rejected_witness :
    mkSubsetLoadBalancer
      ⟨[sampleSelector, ⟨["stage"], .NO_FALLBACK, false⟩], .ANY_ENDPOINT, [], 1⟩ =
      none :=
  duplicate_selector_keys_rejected _ [] [] [] sampleSelector
    ⟨["stage"], .NO_FALLBACK, false⟩ rfl rfl

/-- Claim C9: once created, a subset entry and its priority subset are never
destroyed by any membership update — materialized paths stay materialized,
initialized entries stay initialized (they are only emptied) — and every
materialized path conforms to a configured selector key combination, which
bounds the trie by the cardinality the configured selectors imply. -/
theorem entries_never_destroyed (cfg : LbConfig) (deltas : List Delta)
    (hd : ∀ d ∈ deltas, d.priority < cfg.numPriorities)
    (q : Nat) (added removed : List Host) (hq : q < cfg.numPriorities) :
    (∀ p, pathExists p (runDeltas cfg deltas).subsets →
      pathExists p (update cfg (runDeltas cfg deltas) q added removed).subsets) ∧
    (∀ p ps, viewAt (runDeltas cfg deltas).subsets p = some ps →
      (viewAt (update cfg (runDeltas cfg deltas) q added removed).subsets p).isSome =
        true) ∧
    (∀ p, pathExists p (update cfg (runDeltas cfg deltas) q added removed).subsets →
      ∃ s ∈ cfg.selectors, p.map Prod.fst <+: s.keys) := by
  have hTne : ∀ p₀ ∈ touchedPaths cfg.selectors added removed, p₀ ≠ [] :=
    fun p₀ h => touchedPaths_ne_nil _ _ _ _ h
  have hTnd : (touchedPaths cfg.selectors added removed).Nodup := by
    unfold touchedPaths; exact List.nodup_dedup _
  refine ⟨?_, ?_, ?_⟩
  · intro p hex
    exact pathExists_foldl _ _ _ p hTne hex
  · intro p ps hv
    have hp : p ≠ [] := by
      intro hnil
      subst hnil
      rw [viewAt_nil_path] at hv
      cases hv
    have hF1 : viewAt (processSubsets cfg (runDeltas cfg deltas).subsets
        ((runDeltas cfg deltas).auth.set q
          (applyAuthDelta ((runDeltas cfg deltas).auth.getD q []) added removed))
        q added removed) p =
        if p ∈ touchedPaths cfg.selectors added removed then
          subsetStep cfg
            ((runDeltas cfg deltas).auth.set q
              (applyAuthDelta ((runDeltas cfg deltas).auth.getD q []) added removed))
            q added removed p (viewAt (runDeltas cfg deltas).subsets p)
        else viewAt (runDeltas cfg deltas).subsets p :=
      viewAt_foldl
        (subsetStep cfg
          ((runDeltas cfg deltas).auth.set q
            (applyAuthDelta ((runDeltas cfg deltas).auth.getD q []) added removed))
          q added removed)
        (touchedPaths cfg.selectors added removed)
        (runDeltas cfg deltas).subsets p hTne hTnd hp
    show (viewAt (processSubsets cfg (runDeltas cfg deltas).subsets
      ((runDeltas cfg deltas).auth.set q
        (applyAuthDelta ((runDeltas cfg deltas).auth.getD q []) added removed))
      q added removed) p).isSome = true
    rw [hF1]
    by_cases hpT : p ∈ touchedPaths cfg.selectors added removed
    · rw [if_pos hpT, hv]
      simp [subsetStep]
    · rw [if_neg hpT, hv]
      rfl
  · exact (inv_update cfg (runDeltas cfg deltas) q added removed
      (inv_runDeltas cfg deltas hd) hq).pathsConf

theorem entries_never_destroyed_witness :
    (viewAt (update sampleCfg (runDeltas sampleCfg sampleDeltas) 0 [] [hostA]).subsets
      pathProd).isSome = true := by
  have h := entries_never_destroyed sampleCfg sampleDeltas (by decide) 0 [] [hostA]
    (by decide)
  exact h.2.1 pathProd ⟨[[hostA]], false⟩ (by decide)

/-- Claim C10: a freshly constructed PrioritySubsetImpl reports empty() =
true (its empty_ flag is initialized to true), so an entry whose priority
subset has just been attached but has received no update adding a host is
initialized but not active, and findSubset treats it as a miss. -/
theorem fresh_priority_subset_inactive (n : Nat) (c : LbSubsetMap)
    (m : LbSubsetMap) (crits : List (String × MValue)) :
    (psNew n).empty = true ∧
    (∀ q, (psNew n).hostSets.getD q [] = []) ∧
    (LbSubsetEntry.mk c (some (psNew n))).initialized = true ∧
    (LbSubsetEntry.mk c (some (psNew n))).active = false ∧
    (traverse crits m = some (.mk c (some (psNew n))) →
      findSubset crits m = none) := by
  refine ⟨rfl, fun q => getD_replicate_nil n q, rfl, rfl, ?_⟩
  intro htrav
  cases hf : findSubset crits m with
  | none => rfl
  | some e =>
    obtain ⟨h1, h2⟩ := (findSubset_iff crits m e).mp hf
    rw [htrav] at h1
    cases Option.some.inj h1
    simp [LbSubsetEntry.active, LbSubsetEntry.initialized, psNew,
      PrioritySubsetImpl.empty] at h2

theorem fresh_priority_subset_inactive_witness :
    findSubset pathProd sampleFreshTrie = none :=
  (fresh_priority_subset_inactive 1 [] sampleFreshTrie pathProd).2.2.2.2 (by rfl)

end SubsetLb
